import Mathlib

/-!
Verification of the S3 virtual-filesystem adapter of AWS-S3-Visualizer
(`src/hooks/useS3System.js`).

The backing object store is modelled as a list of objects, each carrying a
key and a size.  The store API surface the adapter consumes is modelled as
pure functions on that list:

* `ListObjectsV2` without a delimiter returns pages of at most `maxKeys`
  objects (the service default of 1000 applies when the caller sets no
  limit); the opaque continuation token is modelled as the index of the
  first object of the next page.
* `ListObjectsV2` with `Delimiter: "/"` returns the direct objects and the
  deduplicated common prefixes.  No verified flow paginates a delimited
  listing, so its truncation is not modelled.
* `PutObject` creates or overwrites one object, `CopyObject` server-side
  copies one object, `DeleteObjects` batch-deletes a list of keys.

An empty `Contents` array is modelled as the empty list.  JavaScript string
operations (`trim`, first-occurrence `replace`, `startsWith`, `endsWith`,
`slice`) are modelled character-wise on `String.data`.
-/

namespace S3Viz

/-- One object held by the backing store: its key and its size in bytes.
The body and the last-modified timestamp are not modelled; no verified
property mentions them. -/
structure S3Object where
  key : String
  size : Nat
deriving DecidableEq, Repr

/-- The backing bucket, modelled as the list of its objects. -/
abbrev Store := List S3Object

/-- JavaScript `String.prototype.startsWith`. -/
def jsStartsWith (s p : String) : Bool := p.data.isPrefixOf s.data

/-- JavaScript `String.prototype.endsWith`. -/
def jsEndsWith (s t : String) : Bool := t.data.isSuffixOf s.data

/-- JavaScript `String.prototype.slice(n)` with a nonnegative index. -/
def jsSlice (s : String) (n : Nat) : String := ⟨s.data.drop n⟩

/-- Length of a string in characters (JavaScript `.length`). -/
def strLen (s : String) : Nat := s.data.length

/-- JavaScript whitespace: the characters matched by the regex class `\s`,
which are also exactly the characters stripped by `trim`. -/
def jsWhitespaceChar (c : Char) : Bool :=
  c = ' ' || c = '\t' || c = '\n' || c.toNat = 0x0b || c.toNat = 0x0c || c = '\r' ||
  c.toNat = 0xa0 || c.toNat = 0x1680 || (0x2000 ≤ c.toNat && c.toNat ≤ 0x200a) ||
  c.toNat = 0x2028 || c.toNat = 0x2029 || c.toNat = 0x202f || c.toNat = 0x205f ||
  c.toNat = 0x3000 || c.toNat = 0xfeff

/-- JavaScript `String.prototype.trim` on a character list. -/
def jsTrimList (l : List Char) : List Char :=
  ((l.dropWhile jsWhitespaceChar).reverse.dropWhile jsWhitespaceChar).reverse

/-- JavaScript `String.prototype.trim`. -/
def jsTrim (s : String) : String := ⟨jsTrimList s.data⟩

/-- Core of JavaScript `String.prototype.replace` with a plain string
pattern: replace the first occurrence of `pat` by `repl`, scanning left to
right; if `pat` does not occur the string is unchanged. -/
def replaceFirstAux (pat repl : List Char) : List Char → List Char
  | [] => if pat.isPrefixOf ([] : List Char) then repl else []
  | c :: rest =>
    if pat.isPrefixOf (c :: rest) then repl ++ (c :: rest).drop pat.length
    else c :: replaceFirstAux pat repl rest

/-- JavaScript `s.replace(pat, repl)` with a plain string pattern. -/
def jsReplaceFirst (s pat repl : String) : String :=
  ⟨replaceFirstAux pat.data repl.data s.data⟩

/-- Control characters `\x00`–`\x1f`, the regex range used by the folder
name validation. -/
def ctrlChar (c : Char) : Bool := c.toNat ≤ 0x1f

/-- Characters excluded by the middle character class
`[^\x00-\x1f\\?*:"";<>|\/]` of the folder-name regex of
`isValidFolderName`. -/
def folderMidForbidden (c : Char) : Bool :=
  ctrlChar c || c = '\\' || c = '?' || c = '*' || c = ':' || c = '"' || c = ';' ||
  c = '<' || c = '>' || c = '|' || c = '/'

/-- Characters excluded by the first and last character classes
`[^\s^\x00-\x1f\\?*:"";<>|\/.]` of the folder-name regex: additionally
whitespace, a literal `^` and a period. -/
def folderEdgeForbidden (c : Char) : Bool :=
  jsWhitespaceChar c || c = '^' || folderMidForbidden c || c = '.'

/-- Whether the folder-name regex
`^[^\s^\x00-\x1f\\?*:"";<>|\/.][^\x00-\x1f\\?*:"";<>|\/]*[^\s^\x00-\x1f\\?*:"";<>|\/.]+$`
matches the whole character list: one allowed edge character, any number of
allowed middle characters, then at least one allowed edge character. -/
def folderRegexAccepts : List Char → Bool
  | [] => false
  | [_] => false
  | a :: b :: rest =>
    !folderEdgeForbidden a &&
    ((b :: rest).dropLast.all (fun c => !folderMidForbidden c)) &&
    !folderEdgeForbidden ((b :: rest).getLast (List.cons_ne_nil b rest))

/-- Matching relation of the folder-name regex, written as the literal
decomposition `^A B* C+$`: the list is one `A` character, then `B`
characters, then a nonempty run of `C` characters. -/
def FolderRegexMatch (l : List Char) : Prop :=
  ∃ a b c, l = a :: (b ++ c) ∧ folderEdgeForbidden a = false ∧
    (∀ x ∈ b, folderMidForbidden x = false) ∧ c ≠ [] ∧
    ∀ x ∈ c, folderEdgeForbidden x = false

/-- `isValidFolderName`: the name is truthy (nonempty) and its trimmed form
matches the folder-name regex. -/
def isValidFolderName (folderName : String) : Bool :=
  !folderName.data.isEmpty && folderRegexAccepts (jsTrimList folderName.data)

/-- Characters of the stem class `[\w,\s-]` of the file-name regex. -/
def fileStemChar (c : Char) : Bool :=
  c.isAlpha || c.isDigit || c = '_' || c = ',' || jsWhitespaceChar c || c = '-'

/-- Whether the reversed character list matches the reversal of the
file-name regex `^[\w,\s-]+\.[A-Za-z]{3}$`: three letters, a dot, then a
nonempty run of stem characters. -/
def fileRegexAcceptsRev : List Char → Bool
  | e1 :: e2 :: e3 :: '.' :: rest =>
    e1.isAlpha && e2.isAlpha && e3.isAlpha && !rest.isEmpty && rest.all fileStemChar
  | _ => false

/-- Whether the file-name regex `^[\w,\s-]+\.[A-Za-z]{3}$` matches the
whole character list. -/
def fileRegexAccepts (l : List Char) : Bool := fileRegexAcceptsRev l.reverse

/-- `isValidFileName`: the name is truthy (nonempty) and its trimmed form
matches the file-name regex. -/
def isValidFileName (fileName : String) : Bool :=
  !fileName.data.isEmpty && fileRegexAccepts (jsTrimList fileName.data)

/-- Keys of the objects of a store, in store order. -/
def keysOf (store : Store) : List String := store.map S3Object.key

/-- Objects of the store whose key starts with `p` — the objects a
`Prefix: p` listing ranges over. -/
def objectsUnder (store : Store) (p : String) : Store :=
  store.filter (fun o => jsStartsWith o.key p)

/-- `PutObjectCommand`: create or overwrite the object at `key`. -/
def putObject (store : Store) (key : String) (size : Nat) : Store :=
  if store.any (fun o => o.key == key) then
    store.map (fun o => if o.key == key then { o with size := size } else o)
  else store ++ [⟨key, size⟩]

/-- `CopyObjectCommand`: server-side copy of the object at `srcKey` to
`dstKey`.  Every flow modelled here copies keys obtained from a listing, so
the source exists; a missing source is modelled as leaving the store
unchanged (the real store would raise an error on a path no modelled flow
reaches). -/
def copyObject (store : Store) (srcKey dstKey : String) : Store :=
  match store.find? (fun o => o.key == srcKey) with
  | some o => putObject store dstKey o.size
  | none => store

/-- `DeleteObjectsCommand`: batch-delete every object whose key is listed. -/
def deleteObjects (store : Store) (keys : List String) : Store :=
  store.filter (fun o => !keys.contains o.key)

/-- One page of a `ListObjectsV2Command` response without a delimiter. -/
structure ListPage where
  contents : List S3Object
  isTruncated : Bool
  nextContinuationToken : Option Nat
deriving Repr

/-- `ListObjectsV2` without a delimiter: one page of at most `maxKeys`
objects whose key starts with `p`, starting at position `start` (the
continuation token, `0` when absent). -/
def listObjectsPage (store : Store) (p : String) (maxKeys : Nat) (start : Nat) : ListPage :=
  let matching := objectsUnder store p
  { contents := (matching.drop start).take maxKeys
    isTruncated := decide (start + maxKeys < matching.length)
    nextContinuationToken :=
      if start + maxKeys < matching.length then some (start + maxKeys) else none }

/-- The common prefix contributed by `key` to a `Delimiter: "/"` listing
with `Prefix: p`: defined when `key` starts with `p` and its remainder
contains a `/`, and then equal to `p` plus the remainder up to and
including its first `/`. -/
def commonPrefixOfKey (p key : String) : Option String :=
  if jsStartsWith key p then
    let rest := key.data.drop p.data.length
    if rest.contains '/' then
      some ⟨p.data ++ rest.takeWhile (fun c => c != '/') ++ ['/']⟩
    else none
  else none

/-- Response of a `ListObjectsV2Command` with `Delimiter: "/"`. -/
structure DelimListing where
  contents : List S3Object
  commonPrefixes : List String
deriving DecidableEq, Repr

/-- `ListObjectsV2` with `Delimiter: "/"`: objects directly under `p`
(remainder free of `/`) and the deduplicated common prefixes. -/
def listObjectsDelimited (store : Store) (p : String) : DelimListing :=
  { contents :=
      (objectsUnder store p).filter (fun o => !(o.key.data.drop p.data.length).contains '/')
    commonPrefixes := (store.filterMap (fun o => commonPrefixOfKey p o.key)).dedup }

/-- Folder entry produced by `listContents`. -/
structure FolderEntry where
  name : String
  path : String
  url : String
deriving DecidableEq, Repr

/-- Object entry produced by `listContents`.  Its `url` (the public bucket
URL around the encoded key) is formatting over external configuration and
is not modelled; no verified property mentions it. -/
structure ObjectEntry where
  name : String
  size : Nat
  path : String
deriving DecidableEq, Repr

/-- Result of `listContents`. -/
structure Listing where
  folders : List FolderEntry
  objects : List ObjectEntry
deriving DecidableEq, Repr

/-- `listContents`, as a function of the delimited listing response `data`
it received for `p`: drop zero-byte slash-terminated placeholder objects,
apply the exclusion test (the configurable exclusion regular expression,
modelled as an arbitrary predicate; the default matches nothing), and build
the folder and object entries. -/
def listContents (p : String) (excludeTest : String → Bool) (data : DelimListing) : Listing :=
  let filteredContents := data.contents.filter (fun o => !(o.size == 0 && jsEndsWith o.key "/"))
  { folders := (data.commonPrefixes.filter (fun q => !excludeTest q)).map (fun q =>
      { name := jsSlice q (strLen p), path := q, url := "/?prefix=" ++ q })
    objects := (filteredContents.filter (fun o => !excludeTest o.key)).map (fun o =>
      { name := jsSlice o.key (strLen p), size := o.size, path := o.key }) }

/-- The canonical default folder names. -/
def defaultFolders : List String :=
  ["Health records", "Contractual agreements", "Bills & Receipts", "Financial documents",
   "Care payments", "Advance care planning", "Legal documents"]

/-- Name derived from a common prefix by `ensureDefaultFoldersExist`:
`cp.Prefix.replace(prefix, "").replace("/", "")`. -/
def folderNameOfCp (p cp : String) : String :=
  jsReplaceFirst (jsReplaceFirst cp p "") "/" ""

/-- The `existingFolderNames` set computed by `ensureDefaultFoldersExist`
for root `p` (membership in the JavaScript `Set` is list membership). -/
def existingNames (store : Store) (p : String) : List String :=
  (listObjectsDelimited store p).commonPrefixes.map (folderNameOfCp p)

/-- The default folder names absent from the existing common prefixes. -/
def missingNames (store : Store) (p : String) : List String :=
  defaultFolders.filter (fun n => !(existingNames store p).contains n)

/-- `ensureDefaultFoldersExist`: list the common prefixes under `p` once,
derive their names, and create a zero-byte placeholder `p ++ name ++ "/"`
for each canonical name not among them. -/
def ensureDefaultFoldersExist (store : Store) (p : String) : Store :=
  let names := existingNames store p
  defaultFolders.foldl
    (fun s folder =>
      if names.contains folder then s
      else putObject s (p ++ folder ++ "/") 0)
    store

/-- `createFolder`: validate the folder name, then create a zero-byte
object at `currentPrefix + folderName.trim() + "/"`. -/
def createFolder (store : Store) (folderName currentPfx : String) : Except String Store :=
  if !isValidFolderName folderName then .error "Invalid folder name!"
  else .ok (putObject store (currentPfx ++ jsTrim folderName ++ "/") 0)

/-- `copyFolderContents`: copy every object under `srcPre` to the key
obtained by replacing the first occurrence of `srcPre` with `dstPre`.  The
continuation-token loop gathers pages that concatenate to the full list of
objects under `srcPre`; it is modelled as one pass over that snapshot.
Returns the new store and the number of copy calls issued. -/
def copyFolderContents (store : Store) (srcPre dstPre : String) : Store × Nat :=
  let snapshot := objectsUnder store srcPre
  (snapshot.foldl (fun s o => copyObject s o.key (jsReplaceFirst o.key srcPre dstPre)) store,
   snapshot.length)

/-- `copyFileOrFolders`: recursive folder copy when `srcKey` ends in `/`,
otherwise a single server-side copy. -/
def copyFileOrFolders (store : Store) (srcKey dstKey : String) : Store × Nat :=
  if jsEndsWith srcKey "/" then copyFolderContents store srcKey dstKey
  else (copyObject store srcKey dstKey, 1)

/-- `deleteFolderAndContents`: list one page (service page limit 1000)
under `p`; if it is empty return without deleting, otherwise batch-delete
the listed keys and, if the listing was truncated, recurse on the same
`p`.  Returns the new store and the number of batch-delete calls issued. -/
def deleteFolderAndContents (store : Store) (p : String) : Store × Nat :=
  let page := listObjectsPage store p 1000 0
  if page.contents.length == 0 then (store, 0)
  else
    let store1 := deleteObjects store (page.contents.map S3Object.key)
    if page.isTruncated then
      let r := deleteFolderAndContents store1 p
      (r.1, r.2 + 1)
    else (store1, 1)
termination_by (objectsUnder store p).length
decreasing_by
  rename_i h1 h2
  simp only [listObjectsPage, List.drop_zero] at h1 h2 ⊢
  have hsub : objectsUnder (deleteObjects store
      (((objectsUnder store p).take 1000).map S3Object.key)) p =
      (objectsUnder store p).filter
        (fun o => !(((objectsUnder store p).take 1000).map S3Object.key).contains o.key) := by
    simp only [objectsUnder, deleteObjects, List.filter_filter]
    rw [List.filter_congr]
    intro o _
    exact Bool.and_comm _ _
  rw [hsub]
  have hne : (objectsUnder store p).take 1000 ≠ [] := by
    intro hnil
    apply h1
    show ((listObjectsPage store p 1000 0).contents.length == 0) = true
    simp [listObjectsPage, hnil]
  rcases List.exists_mem_of_ne_nil _ hne with ⟨o, ho⟩
  refine List.length_filter_lt_length_iff_exists.mpr ⟨o, List.take_subset 1000 _ ho, ?_⟩
  intro hcontra
  have hc : (((objectsUnder store p).take 1000).map S3Object.key).contains o.key = true := by
    simp only [List.contains, List.elem_iff]
    exact List.mem_map_of_mem S3Object.key ho
  simp only [hc, Bool.not_true] at hcontra
  exact Bool.false_ne_true hcontra

/-- `checkIfFileExists`: list with the destination as `Prefix` and
`MaxKeys: 1`; `true` means at least one object was returned, which makes
the caller throw the destination-exists error. -/
def checkIfFileExists (store : Store) (key : String) : Bool :=
  decide (0 < (listObjectsPage store key 1 0).contents.length)

/-- Outcome of one `renameFile` call: the resulting store, the number of
copy calls and batch-delete calls issued, and the thrown error message, if
any. -/
structure RenameResult where
  store : Store
  copyCalls : Nat
  deleteCalls : Nat
  err : Option String
deriving DecidableEq, Repr

/-- `renameFile`: reject missing names, treat `oldKey === newKey` as a
no-op, validate the new name against the folder or file grammar, fail if
anything exists under the computed destination, then copy (per listed
object for folders) and finally delete recursively under the old key. -/
def renameFile (store : Store) (oldKey newKey : String) (isFolder : Bool)
    (currentPfx : String) : RenameResult :=
  if oldKey.data.isEmpty || newKey.data.isEmpty then
    ⟨store, 0, 0, some "New filename must be provided"⟩
  else if oldKey == newKey then ⟨store, 0, 0, none⟩
  else if isFolder then
    if !isValidFolderName newKey then ⟨store, 0, 0, some "Invalid folder name"⟩
    else
      let oldK := currentPfx ++ oldKey ++ "/"
      let newK := currentPfx ++ newKey ++ "/"
      if checkIfFileExists store newK then
        ⟨store, 0, 0, some "The destination file or folder already exists."⟩
      else
        let listed := (listObjectsPage store oldK 1000 0).contents
        let copied := listed.foldl
          (fun (acc : Store × Nat) o =>
            let step := copyFileOrFolders acc.1 o.key (jsReplaceFirst o.key oldK newK)
            (step.1, acc.2 + step.2))
          (store, 0)
        let deleted := deleteFolderAndContents copied.1 oldK
        ⟨deleted.1, copied.2, deleted.2, none⟩
  else
    if !isValidFileName newKey then ⟨store, 0, 0, some "Invalid file name"⟩
    else
      let oldK := currentPfx ++ oldKey
      let newK := currentPfx ++ newKey
      if checkIfFileExists store newK then
        ⟨store, 0, 0, some "The destination file or folder already exists."⟩
      else
        let copied := copyFileOrFolders store oldK newK
        let deleted := deleteFolderAndContents copied.1 oldK
        ⟨deleted.1, copied.2, deleted.2, none⟩

/-- Folder-name grammar exactly as the specification words it: non-empty,
no control characters, none of the characters `\ ? * : " < > | /`, not
starting or ending with whitespace, not ending with a period. -/
def SpecFolderGrammarOk (name : String) : Prop :=
  name.data ≠ [] ∧
  (∀ c ∈ name.data, ctrlChar c = false) ∧
  (∀ c ∈ name.data,
    c ∉ (['\\', '?', '*', ':', '"', '<', '>', '|', '/'] : List Char)) ∧
  (∀ c, name.data.head? = some c → jsWhitespaceChar c = false) ∧
  (∀ c, name.data.getLast? = some c → jsWhitespaceChar c = false) ∧
  name.data.getLast? ≠ some '.'

/-- File-name shape exactly as the claim words it: one or more word, space
or hyphen characters, then a dot, then exactly three letters. -/
def SpecFileShaped (name : String) : Prop :=
  ∃ stem ext : List Char, name.data = stem ++ '.' :: ext ∧ stem ≠ [] ∧
    (∀ c ∈ stem, (c.isAlpha || c.isDigit || c = '_' || jsWhitespaceChar c || c = '-') = true) ∧
    ext.length = 3 ∧ ∀ c ∈ ext, c.isAlpha = true

/-- File-name shape after trimming, with the full stem class of the
implemented regex (word, comma, space or hyphen characters). -/
def TrimmedFileShaped (name : String) : Prop :=
  ∃ stem ext : List Char, jsTrimList name.data = stem ++ '.' :: ext ∧ stem ≠ [] ∧
    (∀ c ∈ stem, fileStemChar c = true) ∧ ext.length = 3 ∧ ∀ c ∈ ext, c.isAlpha = true

theorem strExt {a b : String} (h : a.data = b.data) : a = b := by
  cases a
  cases b
  exact congrArg String.mk h

theorem jsStartsWith_append (p t : String) : jsStartsWith (p ++ t) p = true := by
  simp only [jsStartsWith, String.data_append, List.isPrefixOf_iff_prefix]
  exact List.prefix_append p.data t.data

theorem replaceFirstAux_of_isPrefixOf {pat : List Char} (repl : List Char) {s : List Char}
    (h : pat.isPrefixOf s = true) :
    replaceFirstAux pat repl s = repl ++ s.drop pat.length := by
  cases s with
  | nil => simp [replaceFirstAux, h]
  | cons c rest => simp [replaceFirstAux, h]

theorem jsReplaceFirst_eq_of_startsWith {s pat : String} (repl : String)
    (h : jsStartsWith s pat = true) :
    jsReplaceFirst s pat repl = repl ++ jsSlice s (strLen pat) := by
  apply strExt
  show replaceFirstAux pat.data repl.data s.data = (repl ++ jsSlice s (strLen pat)).data
  rw [replaceFirstAux_of_isPrefixOf repl.data h, String.data_append]
  rfl

/-- C4: for every listing prefix, exclusion test and store listing
response, no entry of the `objects` collection returned by `listContents`
has size `0` together with a key ending in `/`: all zero-byte
slash-terminated folder placeholders are dropped from the object list. -/
theorem listContents_objects_no_placeholder (p : String) (ex : String → Bool)
    (data : DelimListing) :
    ∀ e ∈ (listContents p ex data).objects, ¬(e.size = 0 ∧ jsEndsWith e.path "/" = true) := by
  intro e he
  simp only [listContents, List.mem_map, List.mem_filter] at he
  obtain ⟨o, ⟨⟨ho, hcond⟩, hex⟩, rfl⟩ := he
  intro hcontra
  obtain ⟨hsz, hend⟩ := hcontra
  simp only at hsz hend
  simp [hsz, hend] at hcond

theorem listContents_objects_no_placeholder_witness :
    (⟨"a.txt", 5, "a.txt"⟩ : ObjectEntry) ∈
      (listContents "" (fun _ => false) ⟨[⟨"a.txt", 5⟩], []⟩).objects ∧
    ¬((5 : Nat) = 0 ∧ jsEndsWith "a.txt" "/" = true) := by
  refine ⟨by decide, ?_⟩
  exact listContents_objects_no_placeholder "" (fun _ => false) ⟨[⟨"a.txt", 5⟩], []⟩
    ⟨"a.txt", 5, "a.txt"⟩ (by decide)

/-- C7, counterexample: listing the root when the store reports the common
prefix `"docs/"` produces a folder entry whose `name` is `"docs/"` — the
trailing slash is not stripped, so the name differs from the
slash-stripped form `"docs"` the claim requires. -/
theorem listContents_folder_name_keeps_slash :
    (listContents "" (fun _ => false) ⟨[], ["docs/"]⟩).folders.map FolderEntry.name =
      ["docs/"] ∧ ("docs/" : String) ≠ "docs" := by
  constructor
  · rfl
  · decide

/-- C7, amended: every folder entry's `path` is one of the response's
common prefixes, its `name` is that common prefix with the parent listing
prefix removed — with the trailing slash retained, not stripped — and its
`url` is `/?prefix=` followed by the full common prefix. -/
theorem listContents_folder_entries (p : String) (ex : String → Bool)
    (data : DelimListing) :
    ∀ f ∈ (listContents p ex data).folders,
      f.path ∈ data.commonPrefixes ∧ f.name = jsSlice f.path (strLen p) ∧
        f.url = "/?prefix=" ++ f.path := by
  intro f hf
  simp only [listContents, List.mem_map, List.mem_filter] at hf
  obtain ⟨q, ⟨hq, hex⟩, rfl⟩ := hf
  exact ⟨hq, rfl, rfl⟩

theorem listContents_folder_entries_witness :
    (⟨"docs/", "docs/", "/?prefix=docs/"⟩ : FolderEntry) ∈
      (listContents "" (fun _ => false) ⟨[], ["docs/"]⟩).folders ∧
    ("docs/" : String) ∈ (⟨[], ["docs/"]⟩ : DelimListing).commonPrefixes ∧
      ("docs/" : String) = jsSlice "docs/" (strLen "") ∧
      ("/?prefix=docs/" : String) = "/?prefix=" ++ "docs/" := by
  refine ⟨by decide, ?_⟩
  exact listContents_folder_entries "" (fun _ => false) ⟨[], ["docs/"]⟩
    ⟨"docs/", "docs/", "/?prefix=docs/"⟩ (by decide)

theorem deleteFolder_noop_of_empty (store : Store) (p : String)
    (h : objectsUnder store p = []) : deleteFolderAndContents store p = (store, 0) := by
  rw [deleteFolderAndContents]
  simp [listObjectsPage, h]

/-- C8: recursive deletion of a prefix under which the store lists no keys
returns immediately as a no-op — the store is unchanged, no error is
raised and no batch-delete call is issued. -/
theorem deleteFolder_empty_noop (store : Store) (p : String)
    (h : objectsUnder store p = []) : deleteFolderAndContents store p = (store, 0) :=
  deleteFolder_noop_of_empty store p h

theorem folderMid_of_edge_false {c : Char} (h : folderEdgeForbidden c = false) :
    folderMidForbidden c = false := by
  by_contra hc
  rw [Bool.not_eq_false] at hc
  simp [folderEdgeForbidden, hc] at h

theorem folderRegexAccepts_iff {l : List Char} :
    folderRegexAccepts l = true ↔ FolderRegexMatch l := by
  constructor
  · intro h
    cases l with
    | nil => exact absurd h (by simp [folderRegexAccepts])
    | cons a t =>
      cases t with
      | nil => exact absurd h (by simp [folderRegexAccepts])
      | cons b rest =>
        simp only [folderRegexAccepts, Bool.and_eq_true, Bool.not_eq_true'] at h
        obtain ⟨⟨ha, hmid⟩, hlast⟩ := h
        refine ⟨a, (b :: rest).dropLast,
          [(b :: rest).getLast (List.cons_ne_nil b rest)], ?_, ha, ?_, by simp, ?_⟩
        · rw [List.dropLast_append_getLast]
        · intro x hx
          rw [List.all_eq_true] at hmid
          simpa using hmid x hx
        · intro x hx
          rw [List.mem_singleton] at hx
          subst hx
          exact hlast
  · rintro ⟨a, b, c, rfl, ha, hb, hcne, hc⟩
    obtain ⟨d, ds, hd⟩ := List.exists_cons_of_ne_nil
      (show b ++ c ≠ [] from fun hnil => hcne (List.append_eq_nil.mp hnil).2)
    rw [hd]
    simp only [folderRegexAccepts, Bool.and_eq_true, Bool.not_eq_true']
    refine ⟨⟨ha, ?_⟩, ?_⟩
    · rw [List.all_eq_true]
      intro x hx
      have hx2 : x ∈ b ++ c := by
        rw [hd]
        exact (List.dropLast_sublist (d :: ds)).mem hx
      simp only [Bool.not_eq_true']
      rcases List.mem_append.mp hx2 with hxb | hxc
      · exact hb x hxb
      · exact folderMid_of_edge_false (hc x hxc)
    · have h1 : (d :: ds).getLast? = some ((d :: ds).getLast (List.cons_ne_nil d ds)) :=
        List.getLast?_eq_getLast _ _
      have h2 : (d :: ds).getLast? = some (c.getLast hcne) := by
        rw [← hd, List.getLast?_append_of_ne_nil b hcne]
        exact List.getLast?_eq_getLast _ hcne
      rw [h1] at h2
      rw [Option.some.injEq] at h2
      rw [h2]
      exact hc _ (List.getLast_mem hcne)

theorem folderRegexAccepts_mid {l : List Char} (h : folderRegexAccepts l = true) :
    ∀ c ∈ l, folderMidForbidden c = false := by
  cases l with
  | nil => exact absurd h (by simp [folderRegexAccepts])
  | cons a t =>
    cases t with
    | nil => exact absurd h (by simp [folderRegexAccepts])
    | cons b rest =>
      simp only [folderRegexAccepts, Bool.and_eq_true, Bool.not_eq_true'] at h
      obtain ⟨⟨ha, hmid⟩, hlast⟩ := h
      intro c hcm
      rcases List.mem_cons.mp hcm with rfl | hcm2
      · exact folderMid_of_edge_false ha
      · have hdec := List.dropLast_append_getLast (List.cons_ne_nil b rest)
        rw [← hdec] at hcm2
        rcases List.mem_append.mp hcm2 with hcd | hcl
        · rw [List.all_eq_true] at hmid
          simpa using hmid c hcd
        · rw [List.mem_singleton] at hcl
          subst hcl
          exact folderMid_of_edge_false hlast

theorem folderRegexAccepts_head {l : List Char} (h : folderRegexAccepts l = true)
    {c : Char} (hc : l.head? = some c) : folderEdgeForbidden c = false := by
  cases l with
  | nil => exact absurd h (by simp [folderRegexAccepts])
  | cons a t =>
    cases t with
    | nil => exact absurd h (by simp [folderRegexAccepts])
    | cons b rest =>
      simp only [folderRegexAccepts, Bool.and_eq_true, Bool.not_eq_true'] at h
      rw [List.head?_cons, Option.some.injEq] at hc
      subst hc
      exact h.1.1

theorem folderRegexAccepts_getLast {l : List Char} (h : folderRegexAccepts l = true)
    {c : Char} (hc : l.getLast? = some c) : folderEdgeForbidden c = false := by
  cases l with
  | nil => exact absurd h (by simp [folderRegexAccepts])
  | cons a t =>
    cases t with
    | nil => exact absurd h (by simp [folderRegexAccepts])
    | cons b rest =>
      simp only [folderRegexAccepts, Bool.and_eq_true, Bool.not_eq_true'] at h
      have h1 : (a :: b :: rest).getLast? =
          some ((b :: rest).getLast (List.cons_ne_nil b rest)) := by
        rw [List.getLast?_cons_cons]
        exact List.getLast?_eq_getLast _ _
      rw [h1, Option.some.injEq] at hc
      subst hc
      exact h.2

theorem mem_dropWhile_of_mem {α : Type} {p : α → Bool} :
    ∀ {l : List α} {c : α}, c ∈ l → p c = false → c ∈ l.dropWhile p := by
  intro l
  induction l with
  | nil => intro c hc _; exact absurd hc (List.not_mem_nil c)
  | cons a t ih =>
    intro c hc hp
    rw [List.dropWhile_cons]
    by_cases hpa : p a = true
    · rw [if_pos hpa]
      rcases List.mem_cons.mp hc with rfl | hct
      · exact absurd hpa (by simp [hp])
      · exact ih hct hp
    · rw [if_neg hpa]
      exact hc

theorem mem_jsTrimList {c : Char} {l : List Char} (hc : c ∈ l)
    (hw : jsWhitespaceChar c = false) : c ∈ jsTrimList l := by
  unfold jsTrimList
  rw [List.mem_reverse]
  exact mem_dropWhile_of_mem (List.mem_reverse.mpr (mem_dropWhile_of_mem hc hw)) hw

/-- C6, counterexample: the single-character name `"a"` satisfies the
folder-name grammar as the specification words it, yet the validator
rejects it, so `createFolder` throws the validation error for it. -/
theorem createFolder_rejects_spec_valid_name :
    SpecFolderGrammarOk "a" ∧ isValidFolderName "a" = false ∧
      createFolder [] "a" "" = .error "Invalid folder name!" := by
  refine ⟨⟨by decide, by decide, by decide, by decide, by decide, by decide⟩,
    by decide, by rfl⟩

/-- C6, amended: folder creation fails with the validation error exactly
when the trimmed folder name fails to match the implemented regex (one
non-edge-forbidden character, middle characters free of the forbidden
middle class, then at least one non-edge-forbidden character — which also
forces a minimum length of two); when the trimmed name matches, a
zero-byte object is created at `currentPrefix + folderName.trim() + "/"`. -/
theorem createFolder_grammar (store : Store) (folderName currentPfx : String) :
    (createFolder store folderName currentPfx = .error "Invalid folder name!" ↔
      ¬ FolderRegexMatch (jsTrimList folderName.data)) ∧
    (FolderRegexMatch (jsTrimList folderName.data) →
      createFolder store folderName currentPfx =
        .ok (putObject store (currentPfx ++ jsTrim folderName ++ "/") 0)) := by
  have hiff : isValidFolderName folderName = true ↔
      FolderRegexMatch (jsTrimList folderName.data) := by
    constructor
    · intro h
      simp only [isValidFolderName, Bool.and_eq_true] at h
      exact folderRegexAccepts_iff.mp h.2
    · intro h
      have hne : folderName.data ≠ [] := by
        intro hnil
        obtain ⟨a, b, c, habc, -⟩ := h
        rw [hnil] at habc
        simp [jsTrimList] at habc
      simp only [isValidFolderName, Bool.and_eq_true]
      exact ⟨by simpa using hne, folderRegexAccepts_iff.mpr h⟩
  constructor
  · constructor
    · intro herr hmatch
      have hv := hiff.mpr hmatch
      simp [createFolder, hv] at herr
    · intro hnm
      have hv : isValidFolderName folderName = false := by
        by_contra hcon
        rw [Bool.not_eq_false] at hcon
        exact hnm (hiff.mp hcon)
      simp [createFolder, hv]
  · intro hmatch
    have hv := hiff.mpr hmatch
    simp [createFolder, hv]

theorem createFolder_grammar_witness :
    createFolder [] "Legal documents" "p/" =
      .ok (putObject [] ("p/" ++ jsTrim "Legal documents" ++ "/") 0) :=
  (createFolder_grammar [] "Legal documents" "p/").2
    ⟨'L', ['e', 'g', 'a', 'l', ' ', 'd', 'o', 'c', 'u', 'm', 'e', 'n', 't'], ['s'],
      by decide, by decide, by decide, by decide, by decide⟩

/-- C10, counterexample: `"a^b"` contains `^` yet the validator accepts it
— the `^` exclusion applies only to the first and last character classes
of the regex, not to the middle class. -/
theorem isValidFolderName_accepts_inner_caret :
    isValidFolderName "a^b" = true ∧ '^' ∈ "a^b".data := by
  exact ⟨by decide, by decide⟩

/-- C10, amended: the validator is strictly stricter than the documented
grammar — it rejects every name whose trimmed form has exactly one
character, every name containing `;`, and every name whose trimmed form
starts or ends with `^` (but not names with `^` strictly inside); for
every rejected name `createFolder` throws the validation error. -/
theorem isValidFolderName_restrictions (name : String) (store : Store) (q : String) :
    ((jsTrimList name.data).length = 1 → isValidFolderName name = false) ∧
    (';' ∈ name.data → isValidFolderName name = false) ∧
    ((jsTrimList name.data).head? = some '^' → isValidFolderName name = false) ∧
    ((jsTrimList name.data).getLast? = some '^' → isValidFolderName name = false) ∧
    (isValidFolderName name = false →
      createFolder store name q = .error "Invalid folder name!") := by
  refine ⟨?_, ?_, ?_, ?_, ?_⟩
  · intro hlen
    by_contra hcon
    rw [Bool.not_eq_false, isValidFolderName, Bool.and_eq_true] at hcon
    obtain ⟨x, hx⟩ := List.length_eq_one.mp hlen
    rw [hx] at hcon
    exact absurd hcon.2 (by simp [folderRegexAccepts])
  · intro hmem
    by_contra hcon
    rw [Bool.not_eq_false, isValidFolderName, Bool.and_eq_true] at hcon
    have h1 : ';' ∈ jsTrimList name.data := mem_jsTrimList hmem (by decide)
    have h2 := folderRegexAccepts_mid hcon.2 ';' h1
    exact absurd h2 (by decide)
  · intro hhead
    by_contra hcon
    rw [Bool.not_eq_false, isValidFolderName, Bool.and_eq_true] at hcon
    have h2 := folderRegexAccepts_head hcon.2 hhead
    exact absurd h2 (by decide)
  · intro hlast
    by_contra hcon
    rw [Bool.not_eq_false, isValidFolderName, Bool.and_eq_true] at hcon
    have h2 := folderRegexAccepts_getLast hcon.2 hlast
    exact absurd h2 (by decide)
  · intro hv
    simp [createFolder, hv]

theorem isValidFolderName_restrictions_witness :
    isValidFolderName "x" = false ∧ isValidFolderName "ab;cd" = false ∧
      isValidFolderName "^ab" = false ∧ isValidFolderName "ab^" = false ∧
      createFolder [] "x" "" = .error "Invalid folder name!" :=
  ⟨(isValidFolderName_restrictions "x" [] "").1 (by decide),
   (isValidFolderName_restrictions "ab;cd" [] "").2.1 (by decide),
   (isValidFolderName_restrictions "^ab" [] "").2.2.1 (by decide),
   (isValidFolderName_restrictions "ab^" [] "").2.2.2.1 (by decide),
   (isValidFolderName_restrictions "x" [] "").2.2.2.2
     ((isValidFolderName_restrictions "x" [] "").1 (by decide))⟩

theorem fileRegexAccepts_decomp {stem ext : List Char} (hne : stem ≠ [])
    (hstem : ∀ c ∈ stem, fileStemChar c = true) (hlen : ext.length = 3)
    (hext : ∀ c ∈ ext, c.isAlpha = true) :
    fileRegexAccepts (stem ++ '.' :: ext) = true := by
  obtain ⟨x, y, z, rfl⟩ := List.length_eq_three.mp hlen
  have hrev : (stem ++ '.' :: [x, y, z]).reverse = z :: y :: x :: '.' :: stem.reverse := by
    simp
  rw [fileRegexAccepts, hrev]
  simp only [fileRegexAcceptsRev, Bool.and_eq_true, List.all_eq_true,
    List.isEmpty_eq_false, Bool.not_eq_true']
  refine ⟨⟨⟨⟨hext z (by simp), hext y (by simp)⟩, hext x (by simp)⟩, ?_⟩, ?_⟩
  · simp [List.isEmpty_eq_false, hne]
  · intro c hc
    exact hstem c (List.mem_reverse.mp hc)

/-- C9, counterexample: `" .pdf"` is shaped exactly as the claim words it
(a stem of one space character, a dot, three letters), yet the validator
rejects it, because the name is trimmed before the regex is applied and
trimming empties the stem. -/
theorem isValidFileName_rejects_spec_shaped :
    SpecFileShaped " .pdf" ∧ isValidFileName " .pdf" = false := by
  exact ⟨⟨[' '], ['p', 'd', 'f'], by decide, by decide, by decide, by decide, by decide⟩,
    by decide⟩

/-- C9, amended: the validator accepts every name whose trimmed form is
`report.pdf`-shaped (one or more word, comma, space or hyphen characters,
a dot, then exactly three letters), and rejects `"report"` (no extension)
and `"a/b.txt"` (contains a slash). -/
theorem isValidFileName_shape (name : String) :
    (TrimmedFileShaped name → isValidFileName name = true) ∧
    isValidFileName "report" = false ∧ isValidFileName "a/b.txt" = false := by
  refine ⟨?_, by decide, by decide⟩
  rintro ⟨stem, ext, heq, hne, hstem, hlen, hext⟩
  have hdata : name.data ≠ [] := by
    intro hnil
    rw [hnil] at heq
    simp [jsTrimList] at heq
  simp only [isValidFileName, Bool.and_eq_true]
  refine ⟨by simpa using hdata, ?_⟩
  rw [heq]
  exact fileRegexAccepts_decomp hne hstem hlen hext

theorem isValidFileName_shape_witness :
    isValidFileName "my report,2.pdf" = true :=
  (isValidFileName_shape "my report,2.pdf").1
    ⟨['m', 'y', ' ', 'r', 'e', 'p', 'o', 'r', 't', ',', '2'], ['p', 'd', 'f'],
      by decide, by decide, by decide, by decide, by decide⟩

theorem deleteFolder_empty_noop_witness :
    objectsUnder [⟨"other.txt", 1⟩] "folder/" = [] ∧
    deleteFolderAndContents [⟨"other.txt", 1⟩] "folder/" = ([⟨"other.txt", 1⟩], 0) :=
  ⟨by decide, deleteFolder_empty_noop [⟨"other.txt", 1⟩] "folder/" (by decide)⟩

theorem checkIfFileExists_of_exists {store : Store} {k : String}
    (h : ∃ o ∈ store, jsStartsWith o.key k = true) : checkIfFileExists store k = true := by
  obtain ⟨o, ho, hk⟩ := h
  have hm : o ∈ objectsUnder store k := List.mem_filter.mpr ⟨ho, hk⟩
  have hne : objectsUnder store k ≠ [] := List.ne_nil_of_mem hm
  simp only [checkIfFileExists, listObjectsPage, List.drop_zero, List.length_take,
    decide_eq_true_eq]
  have hlen : 0 < (objectsUnder store k).length := List.length_pos.mpr hne
  omega

/-- C1, counterexample: renaming `"a.txt"` to itself while `"a.txt"`
exists — an object's key starts with the computed destination key, yet the
call returns as a silent no-op: no conflict error is thrown (and no error
at all). -/
theorem renameFile_same_key_noop :
    jsStartsWith "a.txt" ("" ++ "a.txt") = true ∧
    renameFile [⟨"a.txt", 3⟩] "a.txt" "a.txt" false "" =
      ⟨[⟨"a.txt", 3⟩], 0, 0, none⟩ := by
  exact ⟨by decide, by rfl⟩

/-- C1, amended: for every rename call with nonempty old and new names,
`oldKey ≠ newKey`, and a new name passing the applicable validation, if at
least one object's key starts with the computed destination key then
`renameFile` fails with the destination-already-exists error before
issuing any copy or batch-delete call, leaving the store unchanged. -/
theorem renameFile_conflict_aborts (store : Store) (oldKey newKey : String)
    (isFolder : Bool) (currentPfx : String)
    (h1 : oldKey.data ≠ []) (h2 : newKey.data ≠ []) (h3 : oldKey ≠ newKey)
    (h4 : (if isFolder then isValidFolderName newKey else isValidFileName newKey) = true)
    (h5 : ∃ o ∈ store, jsStartsWith o.key
      (currentPfx ++ newKey ++ (if isFolder then "/" else "")) = true) :
    renameFile store oldKey newKey isFolder currentPfx =
      ⟨store, 0, 0, some "The destination file or folder already exists."⟩ := by
  have hne1 : (oldKey.data.isEmpty || newKey.data.isEmpty) = false := by
    simp [h1, h2]
  have hne3 : (oldKey == newKey) = false := by
    simp [h3]
  cases isFolder
  · simp only [if_neg, Bool.false_eq_true, if_false] at h4
    have hv : (!isValidFileName newKey) = false := by rw [h4]; rfl
    have hchk : checkIfFileExists store (currentPfx ++ newKey) = true :=
      checkIfFileExists_of_exists (by simpa using h5)
    simp [renameFile, hne1, hne3, hv, hchk]
  · simp only [if_pos, if_true] at h4
    have hv : (!isValidFolderName newKey) = false := by rw [h4]; rfl
    have hchk : checkIfFileExists store (currentPfx ++ newKey ++ "/") = true :=
      checkIfFileExists_of_exists (by simpa using h5)
    simp [renameFile, hne1, hne3, hv, hchk]

theorem renameFile_conflict_aborts_witness :
    renameFile [⟨"final.txt", 3⟩, ⟨"draft.txt", 2⟩] "draft.txt" "final.txt" false "" =
      ⟨[⟨"final.txt", 3⟩, ⟨"draft.txt", 2⟩], 0, 0,
        some "The destination file or folder already exists."⟩ :=
  renameFile_conflict_aborts [⟨"final.txt", 3⟩, ⟨"draft.txt", 2⟩] "draft.txt" "final.txt"
    false "" (by decide) (by decide) (by decide) (by decide)
    ⟨⟨"final.txt", 3⟩, by decide, by decide⟩

theorem keysOf_putObject (s : Store) (k : String) (sz : Nat) :
    keysOf (putObject s k sz) = keysOf s ∨ keysOf (putObject s k sz) = keysOf s ++ [k] := by
  by_cases h : s.any (fun o => o.key == k) = true
  · left
    rw [putObject, if_pos h]
    unfold keysOf
    rw [List.map_map]
    apply List.map_congr_left
    intro o _
    show (if o.key == k then ({ o with size := sz } : S3Object) else o).key = o.key
    split
    · rfl
    · rfl
  · right
    rw [putObject, if_neg h]
    simp [keysOf]

theorem mem_keysOf_putObject {s : Store} {k' : String} (k : String) (sz : Nat)
    (h : k' ∈ keysOf s) : k' ∈ keysOf (putObject s k sz) := by
  rcases keysOf_putObject s k sz with he | he
  · rw [he]; exact h
  · rw [he]; exact List.mem_append_left _ h

theorem self_mem_keysOf_putObject (s : Store) (k : String) (sz : Nat) :
    k ∈ keysOf (putObject s k sz) := by
  by_cases h : s.any (fun o => o.key == k) = true
  · obtain ⟨o, ho, hk⟩ := List.any_eq_true.mp h
    rw [beq_iff_eq] at hk
    exact mem_keysOf_putObject k sz (hk ▸ List.mem_map_of_mem S3Object.key ho)
  · rw [putObject, if_neg h]
    simp [keysOf]

theorem mem_keysOf_copyObject {s : Store} {k' : String} (a b : String)
    (h : k' ∈ keysOf s) : k' ∈ keysOf (copyObject s a b) := by
  rw [copyObject]
  cases hf : s.find? (fun o => o.key == a) with
  | none => exact h
  | some o => exact mem_keysOf_putObject b o.size h

theorem dst_mem_keysOf_copyObject {s : Store} {a : String} (b : String)
    (h : a ∈ keysOf s) : b ∈ keysOf (copyObject s a b) := by
  rw [copyObject]
  cases hf : s.find? (fun o => o.key == a) with
  | none =>
    exfalso
    obtain ⟨o, ho, hk⟩ := List.mem_map.mp h
    have hs : (s.find? (fun o => o.key == a)).isSome :=
      List.find?_isSome.mpr ⟨o, ho, by simp [hk]⟩
    rw [hf] at hs
    exact absurd hs (by simp)
  | some o => exact self_mem_keysOf_putObject s b o.size

theorem mem_keysOf_copyFold (src dst : String) :
    ∀ (l : List S3Object) (s : Store) (k : String), k ∈ keysOf s →
      k ∈ keysOf (l.foldl (fun s o => copyObject s o.key (jsReplaceFirst o.key src dst)) s) := by
  intro l
  induction l with
  | nil => intro s k h; exact h
  | cons o t ih =>
    intro s k h
    rw [List.foldl_cons]
    exact ih _ k (mem_keysOf_copyObject _ _ h)

theorem copyFold_copies (src dst : String) :
    ∀ (l : List S3Object) (s : Store), (∀ o ∈ l, o.key ∈ keysOf s) →
      ∀ o ∈ l, jsReplaceFirst o.key src dst ∈
        keysOf (l.foldl (fun s o => copyObject s o.key (jsReplaceFirst o.key src dst)) s) := by
  intro l
  induction l with
  | nil => intro s _ o ho; exact absurd ho (List.not_mem_nil o)
  | cons o0 t ih =>
    intro s hinv o ho
    rw [List.foldl_cons]
    rcases List.mem_cons.mp ho with rfl | hot
    · apply mem_keysOf_copyFold src dst
      exact dst_mem_keysOf_copyObject _ (hinv o (List.mem_cons_self o t))
    · exact ih _
        (fun o' ho' => mem_keysOf_copyObject _ _ (hinv o' (List.mem_cons_of_mem o0 ho'))) o hot

/-- C5: folder copy preserves relative structure — for every source prefix
ending in `/` and every destination, every object whose key starts with
the source prefix (the keys the continuation-token loop gathers) ends up
copied to the key obtained by replacing the source prefix with the
destination prefix. -/
theorem copyFolder_preserves_structure (store : Store) (src dst : String) (o : S3Object)
    (hslash : jsEndsWith src "/" = true) (ho : o ∈ store)
    (hpre : jsStartsWith o.key src = true) :
    ∃ e ∈ (copyFileOrFolders store src dst).1, e.key = dst ++ jsSlice o.key (strLen src) := by
  have hrepl : jsReplaceFirst o.key src dst = dst ++ jsSlice o.key (strLen src) :=
    jsReplaceFirst_eq_of_startsWith dst hpre
  have hosnap : o ∈ objectsUnder store src := List.mem_filter.mpr ⟨ho, hpre⟩
  have hinv : ∀ o' ∈ objectsUnder store src, o'.key ∈ keysOf store := by
    intro o' ho'
    exact List.mem_map_of_mem S3Object.key (List.mem_of_mem_filter ho')
  have hmem := copyFold_copies src dst (objectsUnder store src) store hinv o hosnap
  rw [hrepl] at hmem
  rw [copyFileOrFolders, if_pos hslash]
  obtain ⟨e, he, hek⟩ := List.mem_map.mp hmem
  exact ⟨e, he, hek⟩

theorem copyFolder_preserves_structure_witness :
    ∃ e ∈ (copyFileOrFolders [⟨"a/x.txt", 1⟩, ⟨"a/sub/y.txt", 2⟩] "a/" "b/").1,
      e.key = "b/x.txt" := by
  obtain ⟨e, he, hk⟩ := copyFolder_preserves_structure
    [⟨"a/x.txt", 1⟩, ⟨"a/sub/y.txt", 2⟩] "a/" "b/" ⟨"a/x.txt", 1⟩
    (by decide) (by decide) (by decide)
  exact ⟨e, he, by rw [hk]; decide⟩

theorem objectsUnder_deleteObjects (store : Store) (p : String) (ks : List String) :
    objectsUnder (deleteObjects store ks) p =
      (objectsUnder store p).filter (fun o => !ks.contains o.key) := by
  simp only [objectsUnder, deleteObjects, List.filter_filter]
  rw [List.filter_congr]
  intro o _
  exact Bool.and_comm _ _

theorem deleteFolder_eq_of_busy (store : Store) (p : String)
    (hne : objectsUnder store p ≠ []) :
    deleteFolderAndContents store p =
      (if 1000 < (objectsUnder store p).length then
        ((deleteFolderAndContents
            (deleteObjects store (((objectsUnder store p).take 1000).map S3Object.key)) p).1,
         (deleteFolderAndContents
            (deleteObjects store (((objectsUnder store p).take 1000).map S3Object.key)) p).2 + 1)
      else (deleteObjects store (((objectsUnder store p).take 1000).map S3Object.key), 1)) := by
  rw [deleteFolderAndContents]
  simp only [listObjectsPage, List.drop_zero, Nat.zero_add]
  have h1 : ¬((((objectsUnder store p).take 1000).length == 0) = true) := by
    simp only [List.length_take, beq_iff_eq]
    have := List.length_pos.mpr hne
    omega
  rw [if_neg h1]
  by_cases htr : 1000 < (objectsUnder store p).length
  · rw [if_pos (by simpa using htr), if_pos htr]
  · rw [if_neg (by simpa using htr), if_neg htr]

theorem delete_removes_listed (store : Store) (p : String)
    (h : (objectsUnder store p).length ≤ 1000) :
    objectsUnder
      (deleteObjects store (((objectsUnder store p).take 1000).map S3Object.key)) p = [] := by
  rw [objectsUnder_deleteObjects, List.take_of_length_le h, List.filter_eq_nil_iff]
  intro o ho hcontra
  have hc : ((objectsUnder store p).map S3Object.key).contains o.key = true := by
    simp only [List.contains, List.elem_iff]
    exact List.mem_map_of_mem S3Object.key ho
  simp only [hc, Bool.not_true] at hcontra
  exact Bool.false_ne_true hcontra

theorem objectsUnder_delete_page_lt (store : Store) (p : String)
    (hne : objectsUnder store p ≠ []) :
    (objectsUnder (deleteObjects store
        (((objectsUnder store p).take 1000).map S3Object.key)) p).length <
      (objectsUnder store p).length := by
  rw [objectsUnder_deleteObjects]
  have htake : (objectsUnder store p).take 1000 ≠ [] := by
    intro hnil
    apply hne
    have h0 := congrArg List.length hnil
    rw [List.length_take] at h0
    simp only [List.length_nil] at h0
    have hz : (objectsUnder store p).length = 0 := by omega
    exact List.eq_nil_of_length_eq_zero hz
  obtain ⟨o, ho⟩ := List.exists_mem_of_ne_nil _ htake
  refine List.length_filter_lt_length_iff_exists.mpr ⟨o, List.take_subset 1000 _ ho, ?_⟩
  intro hcontra
  have hc : (((objectsUnder store p).take 1000).map S3Object.key).contains o.key = true := by
    simp only [List.contains, List.elem_iff]
    exact List.mem_map_of_mem S3Object.key ho
  simp only [hc, Bool.not_true] at hcontra
  exact Bool.false_ne_true hcontra

theorem deleteFolder_removes_all_aux : ∀ (n : Nat) (store : Store) (p : String),
    (objectsUnder store p).length ≤ n →
      objectsUnder (deleteFolderAndContents store p).1 p = [] := by
  intro n
  induction n with
  | zero =>
    intro store p h
    have hnil : objectsUnder store p = [] :=
      List.eq_nil_of_length_eq_zero (Nat.le_zero.mp h)
    rw [deleteFolder_noop_of_empty store p hnil]
    exact hnil
  | succ n ih =>
    intro store p h
    by_cases hemp : objectsUnder store p = []
    · rw [deleteFolder_noop_of_empty store p hemp]
      exact hemp
    · rw [deleteFolder_eq_of_busy store p hemp]
      by_cases htr : 1000 < (objectsUnder store p).length
      · rw [if_pos htr]
        apply ih
        have hlt := objectsUnder_delete_page_lt store p hemp
        omega
      · rw [if_neg htr]
        exact delete_removes_listed store p (Nat.le_of_not_lt htr)

theorem deleteFolder_calls_pos (store : Store) (p : String)
    (hne : objectsUnder store p ≠ []) : 1 ≤ (deleteFolderAndContents store p).2 := by
  rw [deleteFolder_eq_of_busy store p hne]
  by_cases htr : 1000 < (objectsUnder store p).length
  · rw [if_pos htr]
    exact Nat.le_add_left 1 _
  · rw [if_neg htr]

theorem objectsUnder_sublist_keys (store : Store) (p : String)
    (hnodup : (keysOf store).Nodup) : ((objectsUnder store p).map S3Object.key).Nodup :=
  List.Nodup.sublist (List.Sublist.map S3Object.key (List.filter_sublist store)) hnodup

theorem objectsUnder_delete_page_drop (store : Store) (p : String)
    (hnodup : (keysOf store).Nodup) :
    objectsUnder (deleteObjects store
        (((objectsUnder store p).take 1000).map S3Object.key)) p =
      (objectsUnder store p).drop 1000 := by
  rw [objectsUnder_deleteObjects]
  have hdec : (objectsUnder store p).take 1000 ++ (objectsUnder store p).drop 1000 =
      objectsUnder store p := List.take_append_drop 1000 (objectsUnder store p)
  have hnd : ((objectsUnder store p).map S3Object.key).Nodup :=
    objectsUnder_sublist_keys store p hnodup
  rw [← hdec, List.map_append, List.nodup_append] at hnd
  have hfiltake : ((objectsUnder store p).take 1000).filter
      (fun o => !(((objectsUnder store p).take 1000).map S3Object.key).contains o.key) = [] := by
    rw [List.filter_eq_nil_iff]
    intro o ho hcontra
    have hc : (((objectsUnder store p).take 1000).map S3Object.key).contains o.key = true := by
      simp only [List.contains, List.elem_iff]
      exact List.mem_map_of_mem S3Object.key ho
    simp only [hc, Bool.not_true] at hcontra
    exact Bool.false_ne_true hcontra
  have hfildrop : ((objectsUnder store p).drop 1000).filter
      (fun o => !(((objectsUnder store p).take 1000).map S3Object.key).contains o.key) =
      (objectsUnder store p).drop 1000 := by
    rw [List.filter_eq_self]
    intro o ho
    have hkey : o.key ∈ ((objectsUnder store p).drop 1000).map S3Object.key :=
      List.mem_map_of_mem S3Object.key ho
    have hnot : o.key ∉ ((objectsUnder store p).take 1000).map S3Object.key :=
      fun hmem => hnd.2.2 hmem hkey
    simp only [Bool.not_eq_true', List.contains, ← Bool.not_eq_true, List.elem_iff]
    exact hnot
  nth_rewrite 2 [← hdec]
  rw [List.filter_append, hfiltake, hfildrop, List.nil_append]

/-- C2: for every prefix, recursive deletion leaves no object whose key
starts with that prefix; and when the store's keys are distinct and the
prefix holds 1500 objects (above the 1000-per-page limit), at least two
batch-delete calls are issued. -/
theorem deleteFolder_removes_all (store : Store) (p : String) :
    objectsUnder (deleteFolderAndContents store p).1 p = [] ∧
    ((keysOf store).Nodup → (objectsUnder store p).length = 1500 →
      2 ≤ (deleteFolderAndContents store p).2) := by
  constructor
  · exact deleteFolder_removes_all_aux (objectsUnder store p).length store p (Nat.le_refl _)
  · intro hnodup hlen
    have hne : objectsUnder store p ≠ [] := by
      intro h
      rw [h] at hlen
      simp at hlen
    rw [deleteFolder_eq_of_busy store p hne, if_pos (by omega)]
    have hrest : objectsUnder (deleteObjects store
        (((objectsUnder store p).take 1000).map S3Object.key)) p ≠ [] := by
      rw [objectsUnder_delete_page_drop store p hnodup]
      intro hnil
      have h0 := congrArg List.length hnil
      rw [List.length_drop] at h0
      simp only [List.length_nil] at h0
      omega
    have h2 := deleteFolder_calls_pos _ p hrest
    show 2 ≤ _ + 1
    omega

/-- Concrete 1500-object store used by the C2 witness: 1500 distinct keys
under the prefix `folder/`. -/
def c2Store : Store :=
  (List.range 1500).map (fun i => ⟨"folder/" ++ ⟨List.replicate i 'a'⟩, 1⟩)

theorem c2Store_keys_nodup : (keysOf c2Store).Nodup := by
  unfold c2Store keysOf
  rw [List.map_map]
  have hinj : Function.Injective
      (S3Object.key ∘ fun i => (⟨"folder/" ++ ⟨List.replicate i 'a'⟩, 1⟩ : S3Object)) := by
    intro i j hij
    simp only [Function.comp] at hij
    have hd := congrArg String.data hij
    simp only [String.data_append] at hd
    have hrep := List.append_cancel_left hd
    have hlen := congrArg List.length hrep
    simpa using hlen
  exact List.Nodup.map hinj (List.nodup_range 1500)

theorem c2Store_count : (objectsUnder c2Store "folder/").length = 1500 := by
  unfold objectsUnder c2Store
  rw [List.filter_eq_self.mpr]
  · simp
  · intro o ho
    obtain ⟨i, hi, rfl⟩ := List.mem_map.mp ho
    exact jsStartsWith_append "folder/" _

theorem deleteFolder_removes_all_witness :
    objectsUnder (deleteFolderAndContents c2Store "folder/").1 "folder/" = [] ∧
    2 ≤ (deleteFolderAndContents c2Store "folder/").2 :=
  ⟨(deleteFolder_removes_all c2Store "folder/").1,
   (deleteFolder_removes_all c2Store "folder/").2 c2Store_keys_nodup c2Store_count⟩

theorem contains_iff_mem {α : Type} [BEq α] [LawfulBEq α] {l : List α} {a : α} :
    l.contains a = true ↔ a ∈ l := by
  simp only [List.contains, List.elem_iff]

theorem takeWhile_append_slash : ∀ (l : List Char), '/' ∉ l →
    (l ++ ['/']).takeWhile (fun c => c != '/') = l := by
  intro l
  induction l with
  | nil =>
    intro _
    simp [List.takeWhile]
  | cons c t ih =>
    intro h
    rw [List.cons_append, List.takeWhile_cons]
    have hc : (c != '/') = true := by
      simp only [bne_iff_ne]
      intro hcc
      apply h
      rw [hcc]
      exact List.mem_cons_self '/' t
    rw [if_pos hc, ih (fun hm => h (List.mem_cons_of_mem c hm))]

theorem replaceFirst_slash : ∀ (l t : List Char), '/' ∉ l →
    replaceFirstAux ['/'] [] (l ++ '/' :: t) = l ++ t := by
  intro l
  induction l with
  | nil =>
    intro t _
    rw [List.nil_append]
    rw [replaceFirstAux_of_isPrefixOf [] (by simp [List.isPrefixOf])]
    simp
  | cons c cl ih =>
    intro t h
    have hc : ('/' == c) = false := by
      rw [beq_eq_false_iff_ne]
      intro hcc
      apply h
      rw [← hcc]
      exact List.mem_cons_self '/' cl
    rw [List.cons_append]
    simp only [replaceFirstAux]
    rw [if_neg (by simp [List.isPrefixOf, hc])]
    rw [ih t (fun hm => h (List.mem_cons_of_mem c hm))]
    rw [List.cons_append]

theorem commonPrefixOfKey_self (p n : String) (hn : '/' ∉ n.data) :
    commonPrefixOfKey p (p ++ n ++ "/") = some (p ++ n ++ "/") := by
  have hsw : jsStartsWith (p ++ n ++ "/") p = true := by
    rw [String.append_assoc]
    exact jsStartsWith_append p (n ++ "/")
  have hdata : (p ++ n ++ "/").data = p.data ++ (n.data ++ ['/']) := by
    simp [String.data_append]
  rw [commonPrefixOfKey, if_pos hsw, hdata, List.drop_left]
  have hcontains : (n.data ++ ['/']).contains '/' = true := by
    rw [contains_iff_mem]
    exact List.mem_append_right _ (by simp)
  rw [if_pos hcontains]
  congr 1
  apply strExt
  show p.data ++ (n.data ++ ['/']).takeWhile (fun c => c != '/') ++ ['/'] = (p ++ n ++ "/").data
  rw [takeWhile_append_slash n.data hn, hdata, List.append_assoc]

theorem commonPrefixOfKey_shape {p key cp : String}
    (h : commonPrefixOfKey p key = some cp) :
    ∃ seg : List Char, cp.data = p.data ++ seg ++ ['/'] ∧ '/' ∉ seg := by
  rw [commonPrefixOfKey] at h
  by_cases hsw : jsStartsWith key p = true
  · rw [if_pos hsw] at h
    by_cases hct : (key.data.drop p.data.length).contains '/' = true
    · rw [if_pos hct, Option.some.injEq] at h
      refine ⟨(key.data.drop p.data.length).takeWhile (fun c => c != '/'), ?_, ?_⟩
      · rw [← h]
      · intro hmem
        have hx := List.mem_takeWhile_imp hmem
        simp at hx
    · rw [if_neg hct] at h
      exact absurd h (by simp)
  · rw [if_neg hsw] at h
    exact absurd h (by simp)

theorem folderNameOfCp_eq {p : String} {seg : List Char} (hseg : '/' ∉ seg) :
    folderNameOfCp p ⟨p.data ++ seg ++ ['/']⟩ = ⟨seg⟩ := by
  unfold folderNameOfCp
  have h1 : jsReplaceFirst ⟨p.data ++ seg ++ ['/']⟩ p "" = ⟨seg ++ ['/']⟩ := by
    apply strExt
    show replaceFirstAux p.data [] (p.data ++ seg ++ ['/']) = seg ++ ['/']
    rw [List.append_assoc]
    rw [replaceFirstAux_of_isPrefixOf []
      (by rw [List.isPrefixOf_iff_prefix]; exact List.prefix_append _ _)]
    rw [List.drop_left]
    rfl
  rw [h1]
  apply strExt
  show replaceFirstAux ['/'] [] (seg ++ ['/']) = seg
  have hr := replaceFirst_slash seg [] hseg
  simpa using hr

theorem mem_existingNames_of_key {store : Store} {p n : String}
    (hn : '/' ∉ n.data) (hk : (p ++ n ++ "/") ∈ keysOf store) :
    n ∈ existingNames store p := by
  obtain ⟨o, ho, hkey⟩ := List.mem_map.mp hk
  have hcp : commonPrefixOfKey p o.key = some (p ++ n ++ "/") := by
    rw [hkey]
    exact commonPrefixOfKey_self p n hn
  have hmem : (p ++ n ++ "/") ∈ (listObjectsDelimited store p).commonPrefixes := by
    simp only [listObjectsDelimited]
    rw [List.mem_dedup]
    exact List.mem_filterMap.mpr ⟨o, ho, hcp⟩
  have hname : folderNameOfCp p (p ++ n ++ "/") = n := by
    have hdata : (p ++ n ++ "/") = (⟨p.data ++ n.data ++ ['/']⟩ : String) := by
      apply strExt
      simp [String.data_append]
    rw [hdata, folderNameOfCp_eq hn]
  rw [← hname]
  exact List.mem_map_of_mem (folderNameOfCp p) hmem

theorem cp_mem_of_mem_existingNames {store : Store} {p n : String}
    (_hn : '/' ∉ n.data) (h : n ∈ existingNames store p) :
    (p ++ n ++ "/") ∈ (listObjectsDelimited store p).commonPrefixes := by
  obtain ⟨cp, hcp, hname⟩ := List.mem_map.mp h
  have hcp2 : cp ∈ store.filterMap (fun o => commonPrefixOfKey p o.key) := by
    simpa [listObjectsDelimited, List.mem_dedup] using hcp
  obtain ⟨o, ho, hsome⟩ := List.mem_filterMap.mp hcp2
  obtain ⟨seg, hdata, hseg⟩ := commonPrefixOfKey_shape hsome
  have hfn : folderNameOfCp p cp = ⟨seg⟩ := by
    rw [strExt hdata]
    exact folderNameOfCp_eq hseg
  rw [hfn] at hname
  have hsegn : seg = n.data := congrArg String.data hname
  have hcpeq : cp = p ++ n ++ "/" := by
    apply strExt
    rw [hdata, hsegn]
    simp [String.data_append]
  rw [← hcpeq]
  exact hcp

theorem existingNames_append_left {store extra : Store} {p n : String}
    (h : n ∈ existingNames store p) : n ∈ existingNames (store ++ extra) p := by
  obtain ⟨cp, hcp, hname⟩ := List.mem_map.mp h
  apply List.mem_map.mpr
  refine ⟨cp, ?_, hname⟩
  simp only [listObjectsDelimited, List.mem_dedup, List.filterMap_append,
    List.mem_append] at hcp ⊢
  exact Or.inl hcp

theorem putObject_append {s : Store} {k : String} (sz : Nat)
    (h : k ∉ keysOf s) : putObject s k sz = s ++ [⟨k, sz⟩] := by
  have hany : ¬(s.any (fun o => o.key == k) = true) := by
    intro hatrue
    obtain ⟨o, ho, hk⟩ := List.any_eq_true.mp hatrue
    rw [beq_iff_eq] at hk
    apply h
    rw [← hk]
    exact List.mem_map_of_mem S3Object.key ho
  rw [putObject, if_neg hany]

theorem ensure_fold_eq (p : String) (names : List String) :
    ∀ (ds : List String) (s : Store),
      (∀ n ∈ ds, ¬names.contains n = true → (p ++ n ++ "/") ∉ keysOf s) →
      ds.Nodup →
      (ds.foldl (fun s folder => if names.contains folder then s
        else putObject s (p ++ folder ++ "/") 0) s) =
      s ++ (ds.filter (fun n => !names.contains n)).map
        (fun n => (⟨p ++ n ++ "/", 0⟩ : S3Object)) := by
  intro ds
  induction ds with
  | nil =>
    intro s _ _
    simp
  | cons d dt ih =>
    intro s hkeys hnd
    rw [List.foldl_cons, List.filter_cons]
    by_cases hc : names.contains d = true
    · rw [if_pos hc]
      simp only [hc, Bool.not_true, Bool.false_eq_true, if_false]
      exact ih s (fun n hn => hkeys n (List.mem_cons_of_mem d hn)) (List.Nodup.of_cons hnd)
    · rw [if_neg hc]
      have hnotin : (p ++ d ++ "/") ∉ keysOf s := hkeys d (List.mem_cons_self d dt) hc
      rw [putObject_append 0 hnotin]
      have hcb : (!names.contains d) = true := by
        simp only [Bool.not_eq_true'] at hc ⊢
        exact Bool.not_eq_true _ ▸ (Bool.eq_false_iff.mpr hc)
      rw [if_pos hcb, List.map_cons]
      have hinv : ∀ n ∈ dt, ¬names.contains n = true →
          (p ++ n ++ "/") ∉ keysOf (s ++ [(⟨p ++ d ++ "/", 0⟩ : S3Object)]) := by
        intro n hn hcn
        simp only [keysOf, List.map_append, List.mem_append]
        intro hmem
        rcases hmem with hs | hd2
        · exact hkeys n (List.mem_cons_of_mem d hn) hcn hs
        · simp only [List.map_cons, List.map_nil, List.mem_singleton] at hd2
          have hnd2 : n = d := by
            have h2 := congrArg String.data hd2
            simp only [String.data_append] at h2
            have h3 := List.append_cancel_right h2
            have h4 := List.append_cancel_left h3
            exact strExt h4
          rw [hnd2] at hn
          exact (List.nodup_cons.mp hnd).1 hn
      rw [ih (s ++ [(⟨p ++ d ++ "/", 0⟩ : S3Object)]) hinv (List.Nodup.of_cons hnd)]
      rw [List.append_assoc, List.singleton_append]

theorem ensure_eq_append (store : Store) (p : String) :
    ensureDefaultFoldersExist store p =
      store ++ (missingNames store p).map (fun n => (⟨p ++ n ++ "/", 0⟩ : S3Object)) := by
  have hinv : ∀ n ∈ defaultFolders, ¬(existingNames store p).contains n = true →
      (p ++ n ++ "/") ∉ keysOf store := by
    intro n hn hcn hk
    have hslash : '/' ∉ n.data := (show ∀ m ∈ defaultFolders, '/' ∉ m.data by decide) n hn
    exact hcn (contains_iff_mem.mpr (mem_existingNames_of_key hslash hk))
  exact ensure_fold_eq p (existingNames store p) defaultFolders store hinv (by decide)

theorem mem_existingNames_ensure (store : Store) (p : String) :
    ∀ n ∈ defaultFolders, n ∈ existingNames (ensureDefaultFoldersExist store p) p := by
  intro n hn
  have hslash : '/' ∉ n.data := (show ∀ m ∈ defaultFolders, '/' ∉ m.data by decide) n hn
  rw [ensure_eq_append]
  by_cases hcn : n ∈ existingNames store p
  · exact existingNames_append_left hcn
  · apply mem_existingNames_of_key hslash
    have hmiss : n ∈ missingNames store p := by
      rw [missingNames, List.mem_filter]
      refine ⟨hn, ?_⟩
      simp only [Bool.not_eq_true']
      rw [← Bool.not_eq_true]
      intro hcontains
      exact hcn (contains_iff_mem.mp hcontains)
    simp only [keysOf]
    have hobj : (⟨p ++ n ++ "/", 0⟩ : S3Object) ∈
        store ++ (missingNames store p).map (fun n => (⟨p ++ n ++ "/", 0⟩ : S3Object)) :=
      List.mem_append_right _ (List.mem_map.mpr ⟨n, hmiss, rfl⟩)
    exact List.mem_map_of_mem S3Object.key hobj

theorem ensure_noop_of_all (t : Store) (p : String)
    (h : ∀ n ∈ defaultFolders, (existingNames t p).contains n = true) :
    ensureDefaultFoldersExist t p = t := by
  have hgen : ∀ (ds : List String) (s : Store),
      (∀ n ∈ ds, (existingNames t p).contains n = true) →
      (ds.foldl (fun s folder => if (existingNames t p).contains folder then s
        else putObject s (p ++ folder ++ "/") 0) s) = s := by
    intro ds
    induction ds with
    | nil => intro s _; rfl
    | cons d dt ih =>
      intro s hall
      rw [List.foldl_cons, if_pos (hall d (List.mem_cons_self d dt))]
      exact ih s (fun n hn => hall n (List.mem_cons_of_mem d hn))
  exact hgen defaultFolders t h

/-- C3: default-folder seeding is idempotent — running it twice yields the
same store as running it once; after one run every canonical folder name
occurs exactly once among the common prefixes under the root; and the run
appends a zero-byte placeholder at `root + name + "/"` exactly for the
canonical names absent from the existing common-prefix names, touching
nothing else. -/
theorem ensure_idempotent (store : Store) (p : String) :
    ensureDefaultFoldersExist (ensureDefaultFoldersExist store p) p =
      ensureDefaultFoldersExist store p ∧
    (∀ n ∈ defaultFolders,
      ((listObjectsDelimited (ensureDefaultFoldersExist store p) p).commonPrefixes).count
        (p ++ n ++ "/") = 1) ∧
    ensureDefaultFoldersExist store p =
      store ++ (missingNames store p).map (fun n => (⟨p ++ n ++ "/", 0⟩ : S3Object)) := by
  refine ⟨?_, ?_, ensure_eq_append store p⟩
  · apply ensure_noop_of_all
    intro n hn
    exact contains_iff_mem.mpr (mem_existingNames_ensure store p n hn)
  · intro n hn
    have hslash : '/' ∉ n.data := (show ∀ m ∈ defaultFolders, '/' ∉ m.data by decide) n hn
    have hmem := cp_mem_of_mem_existingNames hslash (mem_existingNames_ensure store p n hn)
    have hnd : ((listObjectsDelimited (ensureDefaultFoldersExist store p) p).commonPrefixes).Nodup := by
      simp only [listObjectsDelimited]
      exact List.nodup_dedup _
    exact List.count_eq_one_of_mem hnd hmem

theorem ensure_idempotent_witness :
    ((listObjectsDelimited (ensureDefaultFoldersExist [⟨"u/Health records/a.txt", 4⟩] "u/")
        "u/").commonPrefixes).count ("u/" ++ "Legal documents" ++ "/") = 1 ∧
    ensureDefaultFoldersExist
        (ensureDefaultFoldersExist [⟨"u/Health records/a.txt", 4⟩] "u/") "u/" =
      ensureDefaultFoldersExist [⟨"u/Health records/a.txt", 4⟩] "u/" :=
  ⟨(ensure_idempotent [⟨"u/Health records/a.txt", 4⟩] "u/").2.1 "Legal documents" (by decide),
   (ensure_idempotent [⟨"u/Health records/a.txt", 4⟩] "u/").1⟩

end S3Viz
